import Mathlib

/-!
Verification of the `srv` static-file server (package `srv`, `srv.go`).

The development shallowly embeds the path-resolution engine of the final,
struct-based design (`FileServer` with a pluggable handler chain) together
with the Go standard-library path primitives it calls
(`strings.Split`, `path/filepath.Ext`, `path/filepath.Clean`,
`path/filepath.Join`), assuming the Unix path separator `/`.

The operating system is modelled explicitly as a value of type `FS`
(a `stat` oracle, file contents, and a zip-container oracle), so that the
stateful Go code becomes pure functions from an `FS` and a request to an
outcome.
-/

/-! ## Go standard-library path primitives -/

/-- Accumulating splitter over characters: `splitCharsAux cs acc` is
`strings.Split` specialised to the separator `/`, where `acc` holds the
(reversed) characters of the current segment.  `strings.Split("", "/")`
returns `[""]`, which the base case reproduces. -/
def splitCharsAux : List Char → List Char → List (List Char)
  | [], acc => [acc.reverse]
  | c :: rest, acc =>
    if c = '/' then acc.reverse :: splitCharsAux rest []
    else splitCharsAux rest (c :: acc)

/-- Go `strings.Split(s, "/")`. -/
def splitSep (s : String) : List String :=
  (splitCharsAux s.toList []).map String.mk

/-- Helper for `goExt`: the input is the reversed character list of the path,
`acc` the suffix recovered so far in original order.  Scanning from the end,
a `/` means no extension, a `.` ends the scan and yields the suffix starting
at that dot. -/
def extRevAux : List Char → List Char → List Char
  | [], _ => []
  | c :: rest, acc =>
    if c = '/' then []
    else if c = '.' then c :: acc
    else extRevAux rest (c :: acc)

/-- Go `path/filepath.Ext`: the suffix beginning at the final dot in the
final slash-separated element; empty if there is none. -/
def goExt (s : String) : String :=
  String.mk (extRevAux s.toList.reverse [])

/-- Whether a character list denotes a rooted (absolute) path, i.e. begins
with the separator. -/
def isRootedL : List Char → Bool
  | [] => false
  | c :: _ => decide (c = '/')

/-- Whether a path string is rooted (begins with `/`). -/
def isRooted (s : String) : Bool :=
  isRootedL s.toList

/-- Interleaves the separator between elements, as Go's
`strings.Join(elems, "/")`. -/
def joinWithSlash : List (List Char) → List Char
  | [] => []
  | [l] => l
  | l :: rest => l ++ '/' :: joinWithSlash rest

/-- Segment-level core of Go `path/filepath.Clean`: processes the segments
left to right keeping a stack (in reverse) of output segments.  Empty and
`.` segments are dropped; `..` pops a poppable segment, is itself kept when
nothing can be popped in a relative path, and is dropped at the root of a
rooted path. -/
def cleanStackAux (rooted : Bool) : List (List Char) → List (List Char) → List (List Char)
  | [], acc => acc.reverse
  | seg :: rest, acc =>
    if seg = [] ∨ seg = ['.'] then cleanStackAux rooted rest acc
    else if seg = ['.', '.'] then
      match acc with
      | top :: tl =>
        if top = ['.', '.'] then cleanStackAux rooted rest (seg :: acc)
        else cleanStackAux rooted rest tl
      | [] =>
        if rooted then cleanStackAux rooted rest []
        else cleanStackAux rooted rest [['.', '.']]
    else cleanStackAux rooted rest (seg :: acc)

/-- Go `path/filepath.Clean` on character lists (Unix rules). -/
def goCleanL (cs : List Char) : List Char :=
  if cs = [] then ['.']
  else
    let rooted := isRootedL cs
    let body := joinWithSlash (cleanStackAux rooted (splitCharsAux cs []) [])
    if rooted then (if body = [] then ['/'] else '/' :: body)
    else (if body = [] then ['.'] else body)

/-- Go `path/filepath.Clean`. -/
def goClean (s : String) : String :=
  String.mk (goCleanL s.toList)

/-- Go `path/filepath.Join` on character lists: drop leading empty elements,
join the remainder (including any later empty elements) with `/`, and clean;
all-empty input yields the empty path. -/
def goJoinL (elems : List (List Char)) : List Char :=
  match elems.dropWhile List.isEmpty with
  | [] => []
  | l :: rest => goCleanL (joinWithSlash (l :: rest))

/-- Go `path/filepath.Join`; the source wraps it as
`func fpj(path ...string) string`. -/
def goJoin (elems : List String) : String :=
  String.mk (goJoinL (elems.map String.toList))

/-! ## The archive extension and path split (`srv.go`) -/

/-- The archive extension constant `ZIP_EXT` of `srv.go`. -/
def ZIP_EXT : String := ".zip"

/-- Loop body of `splitFilePathWithExt`: walks the segments with their index,
breaking at the first segment whose `filepath.Ext` equals `ext0`; `all` is
the full segment list, `ind` the index of the head of `vals` in `all`.  The
Go locals `arch, file` start out as empty strings, reproduced by the base
case. -/
def splitFilePathWithExtAux (ext0 : String) (all : List String) :
    List String → Nat → String × String
  | [], _ => ("", "")
  | v :: rest, ind =>
    if goExt v = ext0 then
      (goJoin (all.take (ind + 1)), goJoin (all.drop (ind + 1)))
    else
      splitFilePathWithExtAux ext0 all rest (ind + 1)

/-- `splitFilePathWithExt` of `srv.go`: splits a path at the first segment
carrying the given extension into the archive locator (up to and including
that segment, rejoined with `filepath.Join`) and the inner path (the
remainder, rejoined with `filepath.Join`). -/
def splitFilePathWithExt (val : String) (ext0 : String) : String × String :=
  splitFilePathWithExtAux ext0 (splitSep val) (splitSep val) 0

/-- Leftmost index of a list element satisfying the predicate (specification
side description of the loop's break behaviour). -/
def firstIdx (p : α → Bool) : List α → Option Nat
  | [] => none
  | a :: l => if p a then some 0 else (firstIdx p l).map (· + 1)

example : splitSep "/report/archive.zip/public/index.html"
    = ["", "report", "archive.zip", "public", "index.html"] := by decide

example : splitFilePathWithExt "/report/archive.zip/public/index.html" ZIP_EXT
    = ("report/archive.zip", "public/index.html") := by decide

example : splitFilePathWithExt "no/zip/here" ZIP_EXT = ("", "") := by decide

example : goJoin ["root", "/x"] = "root/x" := by decide

example : goJoin ["root/x", "index.html"] = "root/x/index.html" := by decide

example : goExt "archive.zip" = ".zip" := by decide

/-! ## Operating-system model

The Go code reaches the outside world through `os.Stat`, `http.ServeFile`,
`zip.OpenReader` and `mime.TypeByExtension`.  These effects are modelled as
oracles packaged in a single explicit state value `FS`, threaded through the
embedded functions.  `stat` returns `some isDir` when the path exists
(`os.Stat` succeeds) and `none` otherwise; `os.Stat("")` always fails, which
is recorded as the invariant `empty_absent`. -/

/-- Error classes distinguished by the code: `fs.ErrNotExist`,
`fs.ErrPermission`, and everything else. -/
inductive GoErr where
  | notExist
  | permission
  | other (msg : String)
deriving DecidableEq

/-- An opened zip container, as exposed by `zip.OpenReader`: entries are
looked up by exact name (`zipReader.Open`) and yield their decompressed
bytes or fail. -/
structure ZipArchive where
  openEntry : String → Except GoErr String

/-- The modelled operating system: a `stat` oracle (`some isDir` on success),
file contents as served verbatim by `http.ServeFile`, the zip-container
oracle `zip.OpenReader`, and the MIME table `mime.TypeByExtension`. -/
structure FS where
  stat : String → Option Bool
  content : String → String
  zipOpen : String → Except GoErr ZipArchive
  mime : String → String
  empty_absent : stat "" = none

/-- `fileExists` of `srv.go`: `stat, _ := os.Stat(filePath);
return stat != nil && !stat.IsDir()`. -/
def fileExists (fs : FS) (filePath : String) : Bool :=
  match fs.stat filePath with
  | some isDir => !isDir
  | none => false

/-! ## Sources (`FileServable`) and the server -/

/-- The `FileServable` interface of `srv.go`, restricted to its existence
test; the effect of `ServeFile` is tracked by the engine's `Outcome`. -/
structure FileServable where
  fileExists : FS → String → Bool

/-- `PlainFileServer` of `srv.go` (a `string` newtype whose `FileExists`
ignores the receiver and stats the candidate path directly). -/
def PlainFileServer (_dir : String) : FileServable :=
  ⟨fun fs p => fileExists fs p⟩

/-- `ZipFileServer.FileExists` of `srv.go`: split the candidate at the first
`.zip` segment and stat the archive locator. -/
def ZipFileServer (_self : String) : FileServable :=
  ⟨fun fs p => fileExists fs (splitFilePathWithExt p ZIP_EXT).1⟩

/-- The path `fpj(string(self), "404.html")` used by `NotFoundFileServer`. -/
def NotFoundFileServer.filePath (self : String) : String :=
  goJoin [self, "404.html"]

/-- `NotFoundFileServer` of `srv.go`: its `FileExists` ignores the candidate
and checks for `404.html` under its root. -/
def NotFoundFileServer (self : String) : FileServable :=
  ⟨fun fs _ => fileExists fs (NotFoundFileServer.filePath self)⟩

/-- The `FileServer` struct of `srv.go`. -/
structure FileServer where
  Dir : String
  Handlers : List FileServable

/-- `FileServer.AppendHandler`: mutates the receiver by appending the
handler and returns the updated receiver by value; modelled as the pair
(updated receiver, returned value). -/
def FileServer.AppendHandler (self : FileServer) (handler : FileServable) :
    FileServer × FileServer :=
  let s := { self with Handlers := self.Handlers ++ [handler] }
  (s, s)

/-- Result of one request against the engine, abstracting the response
written to the `http.ResponseWriter`:
`methodNotAllowed` is `http.Error(rew, "", 405)`;
`emptyOK` is the bare `return` for HEAD/OPTIONS (status 200, empty body);
`noMatch` is the loop of `ServeHTTP` falling off the end without writing
anything (also an empty 200);
`served i c` records that handler number `i` of the effective handler list
served candidate path `c` via its `ServeFile`. -/
inductive Outcome where
  | methodNotAllowed
  | emptyOK
  | noMatch
  | served (idx : Nat) (candidate : String)
deriving DecidableEq

/-- The handler loop of `FileServer.ServeHTTP` (lines 74–103 of `srv.go`):
for each handler in order, try the exact candidate, then `+".html"`, then
`+"/index.html"`, serving the first one whose `FileExists` answers true;
fall through to the next handler otherwise, and return without writing
anything when the handlers are exhausted. -/
def serveLoop (fs : FS) (filePath : String) : List FileServable → Nat → Outcome
  | [], _ => .noMatch
  | han :: rest, i =>
    if han.fileExists fs filePath then .served i filePath
    else if han.fileExists fs (filePath ++ ".html") then
      .served i (filePath ++ ".html")
    else if han.fileExists fs (goJoin [filePath, "index.html"]) then
      .served i (goJoin [filePath, "index.html"])
    else serveLoop fs filePath rest (i + 1)

/-- `FileServer.ServeHTTP` of `srv.go`: the method switch (default 405,
HEAD/OPTIONS empty return, GET proceeds), then the handler loop over the
effective list `append([]FileServable{PlainFileServer(self.Dir)},
self.Handlers...)` applied to `fpj(dir, req.URL.Path)`. -/
def FileServer.ServeHTTP (self : FileServer) (fs : FS)
    (method : String) (urlPath : String) : Outcome :=
  if method = "GET" then
    serveLoop fs (goJoin [self.Dir, urlPath])
      (PlainFileServer self.Dir :: self.Handlers) 0
  else if method = "HEAD" ∨ method = "OPTIONS" then .emptyOK
  else .methodNotAllowed

/-- The three candidate shapes generated for a base candidate path, in the
order the loop tries them. -/
def candidatesOf (filePath : String) : List String :=
  [filePath, filePath ++ ".html", goJoin [filePath, "index.html"]]

/-- Specification-side description of one source's trial: the first
candidate, in order, that the source reports as existing. -/
def sourceResolve (fs : FS) (han : FileServable) (filePath : String) :
    Option String :=
  (candidatesOf filePath).find? (fun c => han.fileExists fs c)

/-- Specification-side description of the engine: the first source, in
order, that resolves some candidate wins with its first matching
candidate. -/
def engineResolve (fs : FS) (filePath : String) : List FileServable → Nat → Outcome
  | [], _ => .noMatch
  | han :: rest, i =>
    match sourceResolve fs han filePath with
    | some c => .served i c
    | none => engineResolve fs filePath rest (i + 1)

/-- Response body written for an outcome, for servers whose handlers stream
file bytes verbatim (`http.ServeFile`): a served candidate yields that
file's bytes; `http.Error(rew, "", 405)` writes the empty message plus a
newline; the HEAD/OPTIONS return and the loop fallthrough write nothing. -/
def responseBody (fs : FS) : Outcome → String
  | .served _ c => fs.content c
  | .methodNotAllowed => "\n"
  | .emptyOK => ""
  | .noMatch => ""

/-- True when no handler of the effective list matches any of the three
candidate shapes for the request (the premise of the not-found situation). -/
def allCandidatesMiss (fs : FS) (self : FileServer) (urlPath : String) : Bool :=
  (PlainFileServer self.Dir :: self.Handlers).all fun han =>
    (candidatesOf (goJoin [self.Dir, urlPath])).all fun c =>
      !(han.fileExists fs c)

/-! ## The archive source's serve path -/

/-- `errNotExistOrPanic` of `srv.go`: returns `false` when the error is
`fs.ErrNotExist` or `fs.ErrPermission`, and panics otherwise.  The Go
`panic` is modelled as the `Except.error` constructor. -/
def errNotExistOrPanic (err : GoErr) : Except GoErr Bool :=
  if err = .notExist ∨ err = .permission then .ok false
  else .error err

/-- Result of `ZipFileServer.ServeFile`:
`notFoundPage` is `NotFoundFileServer(self).ServeFile` (the `404.html`
fallback); `servedEntry` streams an entry's bytes with the MIME type set
from the inner path's extension; `goPanic` is a `panic(err)` raised by
`errNotExistOrPanic`; `nilDeref` is the Go runtime panic caused by using the
nil `zipReader` (its deferred `Close` and its `Open`) or the nil entry file
(`io.Copy`) after an error branch failed to return. -/
inductive ZipOutcome where
  | notFoundPage
  | servedEntry (contentType : String) (body : String)
  | goPanic (e : GoErr)
  | nilDeref
deriving DecidableEq

/-- `ZipFileServer.ServeFile` of `srv.go`, lines 144–169.  Note the control
flow taken verbatim from the source: after `zip.OpenReader` fails, the
not-found branch is entered only when `errNotExistOrPanic` returns `true` —
which it never does — so an `ErrNotExist`/`ErrPermission` failure falls
through and dereferences the nil `zipReader`; likewise for a failing
`zipReader.Open` the nil `file` reaches `io.Copy`.  (The mutation
`req.URL.Path = inZipFilePath` does not affect the outcome and is not
modelled.) -/
def ZipFileServer.ServeFile (fs : FS) (_self : String) (filePath : String) :
    ZipOutcome :=
  let sp := splitFilePathWithExt filePath ZIP_EXT
  match fs.zipOpen sp.1 with
  | .error err =>
    match errNotExistOrPanic err with
    | .error e => .goPanic e
    | .ok true => .notFoundPage
    | .ok false => .nilDeref
  | .ok arc =>
    match arc.openEntry sp.2 with
    | .error err =>
      match errNotExistOrPanic err with
      | .error e => .goPanic e
      | .ok true => .notFoundPage
      | .ok false => .nilDeref
    | .ok body => .servedEntry (fs.mime (goExt sp.2)) body

/-! ## Concrete states used to instantiate the theorems -/

/-- A filesystem with nothing in it. -/
def fsEmpty : FS where
  stat := fun _ => none
  content := fun _ => ""
  zipOpen := fun _ => .error .notExist
  mime := fun _ => ""
  empty_absent := rfl

/-- A filesystem holding exactly the not-found page `root/404.html`. -/
def fs404 : FS where
  stat := fun p => if p = "root/404.html" then some false else none
  content := fun p => if p = "root/404.html" then "custom not found page" else ""
  zipOpen := fun _ => .error .notExist
  mime := fun _ => ""
  empty_absent := by decide

/-- A filesystem holding the archive `a.zip` as a regular file; the archive
opens successfully and contains the single entry `x.html`. -/
def fsZip : FS where
  stat := fun p => if p = "a.zip" then some false else none
  content := fun _ => ""
  zipOpen := fun p =>
    if p = "a.zip" then
      .ok ⟨fun q => if q = "x.html" then .ok "zipped page" else .error .notExist⟩
    else .error .notExist
  mime := fun e => if e = ".html" then "text/html; charset=utf-8" else ""
  empty_absent := by decide

/-- A filesystem holding the archive locator `report/archive.zip` as a
regular file. -/
def fsReport : FS where
  stat := fun p => if p = "report/archive.zip" then some false else none
  content := fun _ => ""
  zipOpen := fun _ => .error .notExist
  mime := fun _ => ""
  empty_absent := by decide

/-- A configured source that matches exactly the candidate `root/x.html`
(the `.html` candidate shape for the request `/x`). -/
def hanHtml : FileServable :=
  ⟨fun _ c => decide (c = "root/x.html")⟩

/-- A configured source that matches exactly the candidate `root/x`
(an exact match for the request `/x`). -/
def hanExact : FileServable :=
  ⟨fun _ c => decide (c = "root/x")⟩

/-! ## Helper lemmas -/

theorem toList_mk (l : List Char) : (String.mk l).toList = l := rfl

/-- The handler loop is the first-match resolution: per source, the first
existing candidate among the three shapes wins; sources are consulted in
order. -/
theorem serveLoop_eq_engineResolve (fs : FS) (fp : String)
    (hans : List FileServable) (i : Nat) :
    serveLoop fs fp hans i = engineResolve fs fp hans i := by
  induction hans generalizing i with
  | nil => rfl
  | cons han rest ih =>
    show serveLoop fs fp (han :: rest) i = engineResolve fs fp (han :: rest) i
    cases h1 : han.fileExists fs fp with
    | true =>
      simp [serveLoop, engineResolve, sourceResolve, candidatesOf, List.find?, h1]
    | false =>
      cases h2 : han.fileExists fs (fp ++ ".html") with
      | true =>
        simp [serveLoop, engineResolve, sourceResolve, candidatesOf,
          List.find?, h1, h2]
      | false =>
        cases h3 : han.fileExists fs (goJoin [fp, "index.html"]) with
        | true =>
          simp [serveLoop, engineResolve, sourceResolve, candidatesOf,
            List.find?, h1, h2, h3]
        | false =>
          simp [serveLoop, engineResolve, sourceResolve, candidatesOf,
            List.find?, h1, h2, h3, ih]

/-- A GET request runs the handler loop on the joined path over the
effective handler list. -/
theorem ServeHTTP_get (self : FileServer) (fs : FS) (p : String) :
    self.ServeHTTP fs "GET" p
      = serveLoop fs (goJoin [self.Dir, p])
          (PlainFileServer self.Dir :: self.Handlers) 0 := rfl

/-- When every source before `han` resolves nothing and `han` resolves
candidate `c`, the engine serves `c` from `han`'s position. -/
theorem engineResolve_append (fs : FS) (fp : String)
    (pre post : List FileServable) (han : FileServable) (c : String) (i : Nat)
    (hpre : ∀ h ∈ pre, sourceResolve fs h fp = none)
    (hhit : sourceResolve fs han fp = some c) :
    engineResolve fs fp (pre ++ han :: post) i = .served (i + pre.length) c := by
  induction pre generalizing i with
  | nil => simp [engineResolve, hhit]
  | cons a l ih =>
    have ha : sourceResolve fs a fp = none := hpre a (by simp)
    have hl : ∀ h ∈ l, sourceResolve fs h fp = none := by
      intro h hh
      exact hpre h (by simp [hh])
    have harith : i + 1 + l.length = i + (l.length + 1) := by omega
    calc engineResolve fs fp ((a :: l) ++ han :: post) i
        = engineResolve fs fp (l ++ han :: post) (i + 1) := by
          simp [engineResolve, ha]
      _ = .served (i + 1 + l.length) c := ih (i + 1) hl
      _ = .served (i + (a :: l).length) c := by rw [List.length_cons, harith]

/-- When every candidate of a source misses, that source resolves nothing. -/
theorem sourceResolve_none (fs : FS) (han : FileServable) (fp : String)
    (h : ∀ c ∈ candidatesOf fp, han.fileExists fs c = false) :
    sourceResolve fs han fp = none := by
  have h1 := h fp (by simp [candidatesOf])
  have h2 := h (fp ++ ".html") (by simp [candidatesOf])
  have h3 := h (goJoin [fp, "index.html"]) (by simp [candidatesOf])
  simp [sourceResolve, candidatesOf, List.find?, h1, h2, h3]

/-- When every source resolves nothing, the engine reports no match. -/
theorem engineResolve_noMatch (fs : FS) (fp : String)
    (hans : List FileServable) (i : Nat)
    (h : ∀ han ∈ hans, sourceResolve fs han fp = none) :
    engineResolve fs fp hans i = .noMatch := by
  induction hans generalizing i with
  | nil => rfl
  | cons han rest ih =>
    have hh : sourceResolve fs han fp = none := h han (by simp)
    have hr : ∀ h2 ∈ rest, sourceResolve fs h2 fp = none := by
      intro h2 hm
      exact h h2 (by simp [hm])
    simp only [engineResolve, hh]
    exact ih (i + 1) hr

/-- The split loop breaks at the leftmost matching segment: it is
characterised by `firstIdx` over the segment list. -/
theorem splitFilePathWithExtAux_eq (ext0 : String) (all : List String)
    (vals : List String) (n : Nat) :
    splitFilePathWithExtAux ext0 all vals n
      = match firstIdx (fun v => decide (goExt v = ext0)) vals with
        | none => ("", "")
        | some k => (goJoin (all.take (n + k + 1)), goJoin (all.drop (n + k + 1))) := by
  induction vals generalizing n with
  | nil => rfl
  | cons v rest ih =>
    by_cases h : goExt v = ext0
    · simp [splitFilePathWithExtAux, firstIdx, h]
    · rw [show splitFilePathWithExtAux ext0 all (v :: rest) n
          = splitFilePathWithExtAux ext0 all rest (n + 1) by
            simp [splitFilePathWithExtAux, h]]
      rw [ih (n + 1)]
      rw [show firstIdx (fun v => decide (goExt v = ext0)) (v :: rest)
          = (firstIdx (fun v => decide (goExt v = ext0)) rest).map (· + 1) by
            simp [firstIdx, h]]
      cases hk : firstIdx (fun v => decide (goExt v = ext0)) rest with
      | none => rfl
      | some k =>
        have : n + 1 + k + 1 = n + (k + 1) + 1 := by omega
        simp [hk, this]

/-- The characterisation at the top level of `splitFilePathWithExt`. -/
theorem splitFilePathWithExt_eq (val : String) (ext0 : String) :
    splitFilePathWithExt val ext0
      = match firstIdx (fun v => decide (goExt v = ext0)) (splitSep val) with
        | none => ("", "")
        | some k =>
          (goJoin ((splitSep val).take (k + 1)),
           goJoin ((splitSep val).drop (k + 1))) := by
  have h := splitFilePathWithExtAux_eq ext0 (splitSep val) (splitSep val) 0
  simpa [splitFilePathWithExt] using h

/-! ### Segments contain no separator; the locator is never rooted -/

/-- Every segment produced by the splitter is free of the separator,
provided the accumulator is. -/
theorem splitCharsAux_no_sep (cs : List Char) :
    ∀ acc, ('/' ∉ acc) → ∀ seg ∈ splitCharsAux cs acc, '/' ∉ seg := by
  induction cs with
  | nil =>
    intro acc hacc seg hseg
    simp only [splitCharsAux, List.mem_singleton] at hseg
    subst hseg
    simpa using hacc
  | cons c rest ih =>
    intro acc hacc seg hseg
    by_cases hc : c = '/'
    · subst hc
      rw [show splitCharsAux ('/' :: rest) acc = acc.reverse :: splitCharsAux rest [] by
        simp [splitCharsAux]] at hseg
      rcases List.mem_cons.mp hseg with h | h
      · subst h
        simpa using hacc
      · exact ih [] (by simp) seg h
    · simp only [splitCharsAux, if_neg hc] at hseg
      refine ih (c :: acc) ?_ seg hseg
      intro hmem
      rcases List.mem_cons.mp hmem with h | h
      · exact hc h.symm
      · exact hacc h

/-- Goodness of a clean-stack entry: nonempty and separator-free. -/
def goodSeg (l : List Char) : Prop := l ≠ [] ∧ '/' ∉ l

/-- The clean stack only ever holds nonempty, separator-free segments. -/
theorem cleanStackAux_good (rooted : Bool) (segs : List (List Char)) :
    ∀ acc, (∀ s ∈ segs, '/' ∉ s) → (∀ a ∈ acc, goodSeg a) →
      ∀ r ∈ cleanStackAux rooted segs acc, goodSeg r := by
  induction segs with
  | nil =>
    intro acc _ hacc r hr
    simp only [cleanStackAux, List.mem_reverse] at hr
    exact hacc r hr
  | cons seg rest ih =>
    intro acc hsegs hacc r hr
    have hseg : '/' ∉ seg := hsegs seg (by simp)
    have hrest : ∀ s ∈ rest, '/' ∉ s := by
      intro s hs
      exact hsegs s (by simp [hs])
    by_cases h1 : seg = [] ∨ seg = ['.']
    · rw [show cleanStackAux rooted (seg :: rest) acc
          = cleanStackAux rooted rest acc by simp [cleanStackAux, h1]] at hr
      exact ih acc hrest hacc r hr
    · by_cases h2 : seg = ['.', '.']
      · cases acc with
        | nil =>
          cases hb : rooted with
          | true =>
            rw [show cleanStackAux rooted (seg :: rest) []
                = cleanStackAux rooted rest [] by
                  simp [cleanStackAux, h1, h2, hb]] at hr
            exact ih [] hrest (by simp) r hr
          | false =>
            rw [show cleanStackAux rooted (seg :: rest) []
                = cleanStackAux rooted rest [['.', '.']] by
                  simp [cleanStackAux, h1, h2, hb]] at hr
            refine ih [['.', '.']] hrest ?_ r hr
            intro a ha
            simp only [List.mem_singleton] at ha
            subst ha
            exact ⟨by simp, by decide⟩
        | cons top tl =>
          have htl : ∀ a ∈ tl, goodSeg a := by
            intro a ha
            exact hacc a (by simp [ha])
          by_cases h3 : top = ['.', '.']
          · rw [show cleanStackAux rooted (seg :: rest) (top :: tl)
                = cleanStackAux rooted rest (seg :: top :: tl) by
                  simp [cleanStackAux, h1, h2, h3]] at hr
            refine ih (seg :: top :: tl) hrest ?_ r hr
            intro a ha
            rcases List.mem_cons.mp ha with h | h
            · subst h
              exact ⟨by simp [h2], hseg⟩
            · exact hacc a (by simp [h])
          · rw [show cleanStackAux rooted (seg :: rest) (top :: tl)
                = cleanStackAux rooted rest tl by
                  simp [cleanStackAux, h1, h2, h3]] at hr
            exact ih tl hrest htl r hr
      · rw [show cleanStackAux rooted (seg :: rest) acc
            = cleanStackAux rooted rest (seg :: acc) by
              simp [cleanStackAux, h1, h2]] at hr
        refine ih (seg :: acc) hrest ?_ r hr
        intro a ha
        rcases List.mem_cons.mp ha with h | h
        · subst h
          refine ⟨?_, hseg⟩
          intro hnil
          exact h1 (Or.inl hnil)
        · exact hacc a h

/-- A join whose head element is nonempty and separator-free is not
rooted. -/
theorem joinWithSlash_not_rooted (l : List Char) (rest : List (List Char))
    (hl : l ≠ []) (hsep : '/' ∉ l) :
    isRootedL (joinWithSlash (l :: rest)) = false := by
  cases l with
  | nil => exact absurd rfl hl
  | cons c cs =>
    have hc : c ≠ '/' := by
      intro h
      exact hsep (by simp [h])
    cases rest with
    | nil => simp [joinWithSlash, isRootedL, hc]
    | cons r rs => simp [joinWithSlash, isRootedL, hc]

/-- Cleaning a non-rooted path yields a non-rooted path. -/
theorem goCleanL_not_rooted (cs : List Char) (h : isRootedL cs = false) :
    isRootedL (goCleanL cs) = false := by
  by_cases hnil : cs = []
  · subst hnil
    decide
  · have hgood : ∀ r ∈ cleanStackAux false (splitCharsAux cs []) [], goodSeg r := by
      intro r hr
      refine cleanStackAux_good false (splitCharsAux cs []) [] ?_ (by simp) r hr
      intro s hs
      exact splitCharsAux_no_sep cs [] (by simp) s hs
    rw [show goCleanL cs
        = (if joinWithSlash (cleanStackAux false (splitCharsAux cs []) []) = []
           then ['.']
           else joinWithSlash (cleanStackAux false (splitCharsAux cs []) [])) by
          simp [goCleanL, hnil, h]]
    cases hs : cleanStackAux false (splitCharsAux cs []) [] with
    | nil => simp [joinWithSlash, isRootedL]
    | cons l rs =>
      have hg : goodSeg l := hgood l (by rw [hs]; simp)
      have hne : joinWithSlash (l :: rs) ≠ [] := by
        cases l with
        | nil => exact absurd rfl hg.1
        | cons a b =>
          cases rs with
          | nil => simp [joinWithSlash]
          | cons r rr => simp [joinWithSlash]
      rw [if_neg hne]
      exact joinWithSlash_not_rooted l rs hg.1 hg.2

/-- In a list of head-dropped elements, the head of the remainder falsifies
the predicate. -/
theorem dropWhile_head_false {α : Type} (p : α → Bool) (l : List α) (a : α)
    (t : List α) (h : l.dropWhile p = a :: t) : p a = false := by
  induction l with
  | nil => simp [List.dropWhile] at h
  | cons b r ih =>
    by_cases hb : p b
    · rw [List.dropWhile_cons_of_pos hb] at h
      exact ih h
    · rw [List.dropWhile_cons_of_neg hb] at h
      cases h
      simpa using hb

/-- Joining separator-free elements never yields a rooted path. -/
theorem goJoinL_not_rooted (elems : List (List Char))
    (h : ∀ l ∈ elems, '/' ∉ l) :
    isRootedL (goJoinL elems) = false := by
  unfold goJoinL
  cases hd : elems.dropWhile List.isEmpty with
  | nil => rfl
  | cons l rest =>
    have hlmem : l ∈ elems := by
      refine (List.dropWhile_sublist List.isEmpty).subset ?_
      rw [hd]
      exact List.mem_cons_self _ _
    have hlne : l ≠ [] := by
      have := dropWhile_head_false List.isEmpty elems l rest hd
      simpa [List.isEmpty_iff] using this
    have hlsep : '/' ∉ l := h l hlmem
    refine goCleanL_not_rooted _ ?_
    exact joinWithSlash_not_rooted l rest hlne hlsep

/-- A filesystem whose only archive is `bad.zip`, which exists but fails to
open with a non-`ErrNotExist`, non-`ErrPermission` error (a corrupt
container). -/
def fsCorrupt : FS where
  stat := fun p => if p = "bad.zip" then some false else none
  content := fun _ => ""
  zipOpen := fun _ => .error (.other "zip: not a valid zip file")
  mime := fun _ => ""
  empty_absent := by decide

/-! ## The claims -/

/-- C1: for every GET request, within each source the engine tries the
candidates in the fixed order exact, then `+".html"`, then
`+"/index.html"`; the first candidate the source reports as existing is
served (`engineResolve` picks `List.find?` over `candidatesOf`, the ordered
candidate list) and resolution stops at that source; no candidate shape is
ever skipped — in particular there is no file-extension shortcut, the
equation holding for every request path. -/
theorem claim_C1_candidate_order (fs : FS) (self : FileServer) (p : String) :
    self.ServeHTTP fs "GET" p
      = engineResolve fs (goJoin [self.Dir, p])
          (PlainFileServer self.Dir :: self.Handlers) 0 := by
  rw [ServeHTTP_get, serveLoop_eq_engineResolve]

/-- C2 (counterexample): with `root/404.html` present and no configured
handlers, a GET for `/missing` matches no candidate in any source and the
engine writes nothing — the loop of `ServeHTTP` falls off the end — rather
than serving the bytes of `root/404.html` as the claim states. -/
theorem claim_C2_counterexample :
    fileExists fs404 (NotFoundFileServer.filePath "root") = true
    ∧ FileServer.ServeHTTP ⟨"root", []⟩ fs404 "GET" "/missing" = .noMatch
    ∧ responseBody fs404 (FileServer.ServeHTTP ⟨"root", []⟩ fs404 "GET" "/missing") = ""
    ∧ fs404.content (NotFoundFileServer.filePath "root") = "custom not found page" := by
  decide

/-- C2 (amended): when no source reports existence for any of the three
candidate shapes, `ServeHTTP` returns without writing anything (an empty
success response); the engine itself never serves `404.html` — the
`NotFoundFileServer` fallback is reached only from `ZipFileServer`'s error
branches or when explicitly appended as a handler. -/
theorem claim_C2_amended_no_fallback (fs : FS) (self : FileServer) (p : String)
    (h : allCandidatesMiss fs self p = true) :
    self.ServeHTTP fs "GET" p = .noMatch := by
  rw [ServeHTTP_get, serveLoop_eq_engineResolve]
  refine engineResolve_noMatch fs _ _ 0 ?_
  intro han hmem
  refine sourceResolve_none fs han _ ?_
  intro c hc
  have h1 := (List.all_eq_true.mp h) han hmem
  have h2 := (List.all_eq_true.mp h1) c hc
  simpa using h2

/-- C2 (witness for the amended claim). -/
theorem claim_C2_amended_witness :
    FileServer.ServeHTTP ⟨"root", []⟩ fs404 "GET" "/missing" = .noMatch :=
  claim_C2_amended_no_fallback fs404 ⟨"root", []⟩ "/missing" (by decide)

/-- C3: evaluation of `ZipFileServer.ServeFile` at the inputs the claim is
about.  An absent inner entry (`a.zip/missing.html`) and an absent container
(`gone.zip/x.html`) both crash with a nil dereference instead of producing
the not-found outcome, because `errNotExistOrPanic` returns `false` — never
`true` — for `ErrNotExist`/`ErrPermission`, leaving its callers' not-found
branches dead; a present entry is served; a corrupt container panics with
the underlying error, as the claim's fatal-error half says. -/
theorem claim_C3_zip_error_crashes :
    ZipFileServer.ServeFile fsZip "root" "a.zip/missing.html" = .nilDeref
    ∧ ZipFileServer.ServeFile fsZip "root" "gone.zip/x.html" = .nilDeref
    ∧ ZipFileServer.ServeFile fsZip "root" "a.zip/x.html"
        = .servedEntry "text/html; charset=utf-8" "zipped page"
    ∧ ZipFileServer.ServeFile fsCorrupt "root" "bad.zip/x.html"
        = .goPanic (.other "zip: not a valid zip file") := by
  decide

/-- C4: the effective source list is the plain source over the root
directory followed by the configured handlers in insertion order, and
precedence is per source: whenever the sources before position
`pre.length` resolve no candidate at all and the source at that position
resolves candidate `c` (via any of its three shapes), that source serves
`c` — regardless of what the sources after it (in `post`) would have
matched, exact matches included. -/
theorem claim_C4_source_precedence (fs : FS) (self : FileServer) (p : String)
    (pre post : List FileServable) (han : FileServable) (c : String)
    (hsplit : PlainFileServer self.Dir :: self.Handlers = pre ++ han :: post)
    (hpre : ∀ h ∈ pre, sourceResolve fs h (goJoin [self.Dir, p]) = none)
    (hhit : sourceResolve fs han (goJoin [self.Dir, p]) = some c) :
    self.ServeHTTP fs "GET" p = .served pre.length c := by
  rw [ServeHTTP_get, serveLoop_eq_engineResolve, hsplit]
  have h := engineResolve_append fs (goJoin [self.Dir, p]) pre post han c 0 hpre hhit
  simpa using h

/-- C4 (witness): the plain source misses everything, the first configured
source matches `/x` only via its `.html` candidate, the second configured
source has an exact match for `/x` — the first configured source (handler
index 1) wins. -/
theorem claim_C4_witness :
    FileServer.ServeHTTP ⟨"root", [hanHtml, hanExact]⟩ fsEmpty "GET" "/x"
      = .served 1 "root/x.html" := by
  have hpre : ∀ h ∈ [PlainFileServer "root"],
      sourceResolve fsEmpty h (goJoin ["root", "/x"]) = none := by
    intro h hm
    rw [List.mem_singleton.mp hm]
    decide
  have hhit : sourceResolve fsEmpty hanHtml (goJoin ["root", "/x"])
      = some "root/x.html" := by decide
  have h := claim_C4_source_precedence fsEmpty ⟨"root", [hanHtml, hanExact]⟩ "/x"
    [PlainFileServer "root"] [hanExact] hanHtml "root/x.html" rfl hpre hhit
  simpa using h

/-- C5: the archive mount-point split is deterministic, breaking at the
leftmost segment whose `filepath.Ext` is `.zip` (`firstIdx`): with no such
segment the split is `("", "")` and the archive source's existence test
fails closed (the empty locator never stats); with leftmost match at index
`k`, the locator is the rejoined first `k+1` segments, the inner path the
rejoined rest, and the existence test equals the plain-file test of the
locator. -/
theorem claim_C5_split_and_existence (fs : FS) (p : String) :
    (firstIdx (fun v => decide (goExt v = ZIP_EXT)) (splitSep p) = none →
        splitFilePathWithExt p ZIP_EXT = ("", "")
        ∧ (ZipFileServer "root").fileExists fs p = false)
    ∧ ∀ k, firstIdx (fun v => decide (goExt v = ZIP_EXT)) (splitSep p) = some k →
        splitFilePathWithExt p ZIP_EXT
          = (goJoin ((splitSep p).take (k + 1)),
             goJoin ((splitSep p).drop (k + 1)))
        ∧ (ZipFileServer "root").fileExists fs p
            = fileExists fs (goJoin ((splitSep p).take (k + 1))) := by
  constructor
  · intro h
    have hs := splitFilePathWithExt_eq p ZIP_EXT
    rw [h] at hs
    refine ⟨hs, ?_⟩
    show fileExists fs (splitFilePathWithExt p ZIP_EXT).1 = false
    rw [hs]
    simp [fileExists, fs.empty_absent]
  · intro k hk
    have hs := splitFilePathWithExt_eq p ZIP_EXT
    rw [hk] at hs
    refine ⟨hs, ?_⟩
    show fileExists fs (splitFilePathWithExt p ZIP_EXT).1 = _
    rw [hs]

/-- C5 (witness): the mount point of `/report/archive.zip/public/index.html`
is its third segment, and a path without any `.zip` segment fails closed. -/
theorem claim_C5_witness :
    splitFilePathWithExt "/report/archive.zip/public/index.html" ZIP_EXT
      = (goJoin ((splitSep "/report/archive.zip/public/index.html").take 3),
         goJoin ((splitSep "/report/archive.zip/public/index.html").drop 3))
    ∧ (ZipFileServer "root").fileExists fsReport "/report/archive.zip/public/index.html"
        = fileExists fsReport
            (goJoin ((splitSep "/report/archive.zip/public/index.html").take 3))
    ∧ splitFilePathWithExt "no/archive/here" ZIP_EXT = ("", "")
    ∧ (ZipFileServer "root").fileExists fsReport "no/archive/here" = false := by
  have h1 := (claim_C5_split_and_existence fsReport
    "/report/archive.zip/public/index.html").2 2 (by decide)
  have h2 := (claim_C5_split_and_existence fsReport "no/archive/here").1 (by decide)
  exact ⟨h1.1, h1.2, h2.1, h2.2⟩

/-- C6: a request whose method is none of GET, HEAD, OPTIONS is answered
method-not-allowed, and HEAD or OPTIONS requests get the empty success
response — in both cases before any resolution: the outcome is the same
constant for every filesystem state and every path, so no candidate is ever
tested. -/
theorem claim_C6_method_gate (fs : FS) (self : FileServer) (m p : String) :
    (m ≠ "GET" → m ≠ "HEAD" → m ≠ "OPTIONS" →
        self.ServeHTTP fs m p = .methodNotAllowed)
    ∧ (m = "HEAD" ∨ m = "OPTIONS" → self.ServeHTTP fs m p = .emptyOK) := by
  constructor
  · intro h1 h2 h3
    simp [FileServer.ServeHTTP, h1, h2, h3]
  · intro h
    rcases h with h | h <;> subst h <;> simp [FileServer.ServeHTTP]

/-- C6 (witness). -/
theorem claim_C6_witness :
    FileServer.ServeHTTP ⟨"root", []⟩ fsEmpty "POST" "/x" = .methodNotAllowed
    ∧ FileServer.ServeHTTP ⟨"root", []⟩ fsEmpty "HEAD" "/x" = .emptyOK
    ∧ FileServer.ServeHTTP ⟨"root", []⟩ fsEmpty "OPTIONS" "/x" = .emptyOK := by
  refine ⟨(claim_C6_method_gate fsEmpty ⟨"root", []⟩ "POST" "/x").1
      (by decide) (by decide) (by decide),
    (claim_C6_method_gate fsEmpty ⟨"root", []⟩ "HEAD" "/x").2 (Or.inl rfl),
    (claim_C6_method_gate fsEmpty ⟨"root", []⟩ "OPTIONS" "/x").2 (Or.inr rfl)⟩

/-- C7: the plain source's existence test answers true exactly when `stat`
succeeds with a non-directory result (`stat != nil && !stat.IsDir()` — the
code inspects only the directory bit, so "regular file" is read as
non-directory); in particular an existing directory answers false and the
loop falls through to the later candidate shapes. -/
theorem claim_C7_plain_exists_iff_regular_file (fs : FS) (d p : String) :
    fileExists fs p = decide (fs.stat p = some false)
    ∧ (PlainFileServer d).fileExists fs p = fileExists fs p := by
  refine ⟨?_, rfl⟩
  cases h : fs.stat p with
  | none => simp [fileExists, h]
  | some b => cases b <;> simp [fileExists, h]

/-- C8: resolution is deterministic — the embedded `ServeHTTP` is a pure
function of the filesystem state, the server configuration, the method and
the path, so two requests agreeing on all four produce the same outcome and
byte-identical bodies (the outcome also determines status and content
type). -/
theorem claim_C8_deterministic (fs fs2 : FS) (s s2 : FileServer)
    (m m2 p p2 : String)
    (hfs : fs = fs2) (hs : s = s2) (hm : m = m2) (hp : p = p2) :
    s.ServeHTTP fs m p = s2.ServeHTTP fs2 m2 p2
    ∧ responseBody fs (s.ServeHTTP fs m p)
        = responseBody fs2 (s2.ServeHTTP fs2 m2 p2) := by
  subst hfs
  subst hs
  subst hm
  subst hp
  exact ⟨rfl, rfl⟩

/-- C8 (witness). -/
theorem claim_C8_witness :
    FileServer.ServeHTTP ⟨"root", []⟩ fs404 "GET" "/missing"
      = FileServer.ServeHTTP ⟨"root", []⟩ fs404 "GET" "/missing"
    ∧ responseBody fs404 (FileServer.ServeHTTP ⟨"root", []⟩ fs404 "GET" "/missing")
        = responseBody fs404 (FileServer.ServeHTTP ⟨"root", []⟩ fs404 "GET" "/missing") :=
  claim_C8_deterministic fs404 fs404 ⟨"root", []⟩ ⟨"root", []⟩
    "GET" "GET" "/missing" "/missing" rfl rfl rfl rfl

/-- C9: `AppendHandler` appends the handler at the end of `Handlers`,
keeps the previously configured handlers as an unchanged prefix, leaves
`Dir` untouched, and returns a value equal to the updated receiver. -/
theorem claim_C9_append_handler (self : FileServer) (handler : FileServable) :
    (self.AppendHandler handler).1.Handlers = self.Handlers ++ [handler]
    ∧ (self.AppendHandler handler).1.Dir = self.Dir
    ∧ (self.AppendHandler handler).2 = (self.AppendHandler handler).1
    ∧ (self.AppendHandler handler).1.Handlers.take self.Handlers.length
        = self.Handlers := by
  refine ⟨rfl, rfl, rfl, ?_⟩
  show (self.Handlers ++ [handler]).take self.Handlers.length = self.Handlers
  simp [List.take_left]

/-- C10: whenever the input path has a segment with the `.zip` extension,
the archive locator returned by `splitFilePathWithExt` is never rooted:
`filepath.Join` discards the leading empty segment of an absolute path, so
the locator of an absolute candidate path is a relative path. -/
theorem claim_C10_locator_relative (p : String) (k : Nat)
    (h : firstIdx (fun v => decide (goExt v = ZIP_EXT)) (splitSep p) = some k) :
    isRooted (splitFilePathWithExt p ZIP_EXT).1 = false := by
  have hs := splitFilePathWithExt_eq p ZIP_EXT
  rw [h] at hs
  have harch : (splitFilePathWithExt p ZIP_EXT).1
      = goJoin ((splitSep p).take (k + 1)) := by
    rw [hs]
  rw [harch]
  show isRootedL (goJoinL (((splitSep p).take (k + 1)).map String.toList)) = false
  refine goJoinL_not_rooted _ ?_
  intro l hl
  rcases List.mem_map.mp hl with ⟨s, hsmem, rfl⟩
  have hs2 : s ∈ splitSep p := List.take_subset _ _ hsmem
  rcases List.mem_map.mp hs2 with ⟨seg, hsegmem, rfl⟩
  rw [toList_mk]
  exact splitCharsAux_no_sep p.toList [] (by simp) seg hsegmem

/-- C10 (witness): the absolute path of the source's own doc-comment
example yields the relative locator. -/
theorem claim_C10_witness :
    isRooted "/report/archive.zip/public/index.html" = true
    ∧ isRooted
        (splitFilePathWithExt "/report/archive.zip/public/index.html" ZIP_EXT).1
      = false :=
  ⟨by decide,
   claim_C10_locator_relative "/report/archive.zip/public/index.html" 2 (by decide)⟩

